import Mathlib

/-!
Verification of the heuristic resume-extraction pipeline of the
Resume_To_Website repository (Express server, `server.js`).

Strings are modelled as `List Char` (JS strings are sequences of UTF-16
units; all inputs of interest are plain BMP text).  Each definition below
is a direct translation of the corresponding JavaScript function.
-/

/-- JS `\s` whitespace class (space, tab, LF, VT, FF, CR, NBSP, and the
Unicode space separators recognised by JS regexes). -/
def isWsChar (c : Char) : Bool :=
  decide (c.toNat = 32) || (decide (9 ≤ c.toNat) && decide (c.toNat ≤ 13)) ||
  decide (c.toNat = 160) || decide (c.toNat = 5760) ||
  (decide (8192 ≤ c.toNat) && decide (c.toNat ≤ 8202)) ||
  decide (c.toNat = 8232) || decide (c.toNat = 8233) || decide (c.toNat = 8239) ||
  decide (c.toNat = 8287) || decide (c.toNat = 12288) || decide (c.toNat = 65279)

/-- ASCII upper-case letter, the class `[A-Z]`. -/
def isUpperAZ (c : Char) : Bool :=
  decide (65 ≤ c.toNat) && decide (c.toNat ≤ 90)

/-- ASCII lower-case letter, the class `[a-z]`. -/
def isLowerAZ (c : Char) : Bool :=
  decide (97 ≤ c.toNat) && decide (c.toNat ≤ 122)

/-- ASCII letter, the class `[a-zA-Z]`. -/
def isAlphaAZ (c : Char) : Bool := isUpperAZ c || isLowerAZ c

/-- ASCII digit, the class `[0-9]` (JS `\d`). -/
def isDigit09 (c : Char) : Bool :=
  decide (48 ≤ c.toNat) && decide (c.toNat ≤ 57)

/-- `String.prototype.toLowerCase` restricted to ASCII (the only case the
pipeline's alphabet exercises: every non-ASCII letter is stripped by the
subsequent `[^a-z0-9 ]` filter anyway). -/
def toLowerJs (c : Char) : Char :=
  if isUpperAZ c then Char.ofNat (c.toNat + 32) else c

/-- The characters kept by `normalizeHeader`'s `[^a-z0-9 ]` strip. -/
def keptChar (c : Char) : Bool :=
  isLowerAZ c || isDigit09 c || decide (c.toNat = 32)

/-- `.replace(/&/g, 'and')`. -/
def ampToAnd : List Char → List Char
  | [] => []
  | c :: rest => (if c = '&' then ['a', 'n', 'd'] else [c]) ++ ampToAnd rest

/-- `.replace(/\s+/g, ' ')`: each maximal whitespace run becomes one space.
The flag records whether the previous character was inside a whitespace run. -/
def collapseWsAux : Bool → List Char → List Char
  | _, [] => []
  | prevWs, c :: rest =>
    if isWsChar c then
      (if prevWs then collapseWsAux true rest else ' ' :: collapseWsAux true rest)
    else c :: collapseWsAux false rest

def collapseWs (l : List Char) : List Char := collapseWsAux false l

/-- Right half of `String.prototype.trim`. -/
def dropTrailingWs (l : List Char) : List Char :=
  (l.reverse.dropWhile isWsChar).reverse

/-- `String.prototype.trim`. -/
def jsTrim (l : List Char) : List Char :=
  dropTrailingWs (l.dropWhile isWsChar)

/-- String literal to the `List Char` model. -/
def s2l (s : String) : List Char := s.data

/-- `normalizeHeader` from the server: lower-case, `&` to `and`, strip
everything outside `[a-z0-9 ]`, collapse whitespace runs, trim. -/
def normList (l : List Char) : List Char :=
  jsTrim (collapseWs ((ampToAnd (l.map toLowerJs)).filter keptChar))

/-- No two adjacent whitespace characters (the shape of a string after
whitespace-run collapsing); used to specify `collapseWs`. -/
def noWsRun : List Char → Bool
  | a :: b :: rest => !(isWsChar a && isWsChar b) && noWsRun (b :: rest)
  | _ => true

/-- The first character, when present, is not whitespace. -/
def headNotWs (l : List Char) : Prop :=
  ∀ c, l.head? = some c → isWsChar c = false

/-! ## Generic list and object helpers (JS `String.prototype.split`,
substring search, and plain-object get/set). -/

/-- `String.prototype.split(sep)` for a one-character separator. -/
def splitOn (sep : Char) : List Char → List (List Char)
  | [] => [[]]
  | c :: rest =>
    if c = sep then [] :: splitOn sep rest
    else
      match splitOn sep rest with
      | [] => [[c]]
      | l :: ls => (c :: l) :: ls

/-- Does the second list start with the first one? -/
def startsWithList : List Char → List Char → Bool
  | [], _ => true
  | _ :: _, [] => false
  | a :: as, b :: bs => decide (a = b) && startsWithList as bs

/-- `String.prototype.includes(needle)`: does `haystack` contain `needle`
as a contiguous run?  (`""` is contained in everything, as in JS.) -/
def containsSub (needle : List Char) : List Char → Bool
  | [] => needle.isEmpty
  | c :: rest => startsWithList needle (c :: rest) || containsSub needle rest

/-- `String.prototype.includes(c)` for a single character. -/
def hasChar (c : Char) (l : List Char) : Bool := l.any (fun d => decide (d = c))

/-- Lookup in the `List`-of-pairs model of a JS plain object. -/
def objGet {V : Type} : List (List Char × V) → List Char → Option V
  | [], _ => none
  | (k₀, v₀) :: rest, k => if k₀ = k then some v₀ else objGet rest k

/-- Property assignment in the plain-object model: overwrite in place
when the key exists (insertion order kept), append otherwise. -/
def objSet {V : Type} : List (List Char × V) → List Char → V → List (List Char × V)
  | [], k, v => [(k, v)]
  | (k₀, v₀) :: rest, k, v =>
    if k₀ = k then (k₀, v) :: rest else (k₀, v₀) :: objSet rest k v

/-! ## Section Segmenter (`extractSectionsByLines`) -/

/-- `text.split('\n').map(l => l.trim())`. -/
def linesOf (text : List Char) : List (List Char) :=
  (splitOn '\n' text).map jsTrim

/-- The fuzzy header match of the segmenter: the normalized line equals,
contains, or is contained in the normalized candidate name. -/
def sectionMatch (normalizedLine sec : List Char) : Bool :=
  decide (normalizedLine = sec) || containsSub sec normalizedLine ||
    containsSub normalizedLine sec

/-- First line index whose normalized form fuzzily matches `sec`
(the `sectionIndices` map of the source: first occurrence wins). -/
def sectionStartIdxGo (sec : List Char) : Nat → List (List Char) → Option Nat
  | _, [] => none
  | i, line :: rest =>
    if sectionMatch (normList line) sec then some i
    else sectionStartIdxGo sec (i + 1) rest

def sectionStartIdx (lines : List (List Char)) (sec : List Char) : Option Nat :=
  sectionStartIdxGo sec 0 lines

/-- End boundary of a section: the recorded start of the first later
candidate whose start index is strictly greater, else end of document. -/
def sectionEnd (lines : List (List Char)) (startIdx : Nat) :
    List (List Char) → Nat
  | [] => lines.length
  | sec :: rest =>
    match sectionStartIdx lines sec with
    | some nextIdx =>
      if startIdx < nextIdx then nextIdx else sectionEnd lines startIdx rest
    | none => sectionEnd lines startIdx rest

/-- Content of one candidate's section: the lines strictly between its
start line and its end boundary, joined by newlines and trimmed; empty
when the candidate matched no line. -/
def sectionContent (lines : List (List Char)) (sec : List Char)
    (laterSecs : List (List Char)) : List Char :=
  match sectionStartIdx lines sec with
  | none => []
  | some startIdx =>
    jsTrim (List.intercalate ['\n']
      ((lines.drop (startIdx + 1)).take (sectionEnd lines startIdx laterSecs - (startIdx + 1))))

/-- The result-building loop of `extractSectionsByLines`: for each
normalized candidate (in list order) store its section content, searching
the end boundary among the candidates after it. -/
def buildSections (lines : List (List Char)) :
    List (List Char) → List (List Char × List Char) → List (List Char × List Char)
  | [], res => res
  | sec :: rest, res =>
    buildSections lines rest (objSet res sec (sectionContent lines sec rest))

def extractSectionsByLines (text : List Char) (sectionNames : List (List Char)) :
    List (List Char × List Char) :=
  buildSections (linesOf text) (sectionNames.map normList) []

/-! ## `cleanArray` and the Work Experience Parser (`parseWorkExperience`) -/

/-- JS `Set` insertion-order dedup: keep the first occurrence of each
element, tracking the elements already seen. -/
def dedupSeen (seen : List (List Char)) : List (List Char) → List (List Char)
  | [] => []
  | x :: xs => if x ∈ seen then dedupSeen seen xs else x :: dedupSeen (x :: seen) xs

def dedupKeepFirst (l : List (List Char)) : List (List Char) := dedupSeen [] l

/-- `cleanArray`: trim every entry, drop empties, dedup keeping the
first occurrence (`Array.from(new Set(...))`). -/
def cleanArray (arr : List (List Char)) : List (List Char) :=
  dedupKeepFirst ((arr.map jsTrim).filter (fun s => s ≠ []))

/-- The role nouns of the title regex. -/
def roleNouns : List (List Char) :=
  [s2l "Engineer", s2l "Developer", s2l "Manager", s2l "Director", s2l "Lead",
   s2l "Analyst", s2l "Consultant", s2l "Specialist", s2l "Coordinator",
   s2l "Assistant", s2l "Intern"]

/-- Does one of the role nouns start here? -/
def roleNounHere (l : List Char) : Bool :=
  roleNouns.any (fun n => startsWithList n l)

/-- The char class `[a-zA-Z\s&]` of the title regex. -/
def isTitleClass (c : Char) : Bool :=
  isAlphaAZ c || isWsChar c || decide (c = '&')

/-- Scan for `[a-zA-Z\s&]+(?:role-noun)` with backtracking semantics:
after at least one class character, a role noun may begin anywhere. -/
def titleScan : Bool → List Char → Bool
  | seen, l =>
    (seen && roleNounHere l) ||
    match l with
    | [] => false
    | c :: rest => isTitleClass c && titleScan true rest

/-- `/^[A-Z][a-zA-Z\s&]+(?:Engineer|...|Intern)/.test(line)`. -/
def titleTest (l : List Char) : Bool :=
  match l with
  | [] => false
  | c :: rest => isUpperAZ c && titleScan false rest

/-- `line.match(/\(([^)]+)\))/`'s capture group: the run of non-`)`
characters after the first `(` that is non-empty and closed by `)`. -/
def parenCapture : List Char → Option (List Char)
  | [] => none
  | c :: rest =>
    if c = '(' then
      let body := rest.takeWhile (fun d => d ≠ ')')
      if body.length > 0 ∧ (rest.drop body.length).head? = some ')' then some body
      else parenCapture rest
    else parenCapture rest

/-- `/\d{4}/.test(line)`: four consecutive digits anywhere. -/
def hasFourDigits : List Char → Bool
  | a :: b :: c :: d :: rest =>
    (isDigit09 a && isDigit09 b && isDigit09 c && isDigit09 d) ||
      hasFourDigits (b :: c :: d :: rest)
  | _ => false

/-- `/[A-Z]{2}$/.test(line)`: ends in two ASCII capitals. -/
def endsTwoUpper (l : List Char) : Bool :=
  match l.reverse with
  | a :: b :: _ => isUpperAZ a && isUpperAZ b
  | _ => false

/-- One work-experience entry being accumulated; `none` fields model
absent JS object keys, `highlights` is created lazily as in the source. -/
structure WorkExp where
  title : Option (List Char)
  organization : Option (List Char)
  dates : Option (List Char)
  location : Option (List Char)
  summary : Option (List Char)
  highlights : Option (List (List Char))
deriving DecidableEq

def emptyExp : WorkExp := ⟨none, none, none, none, none, none⟩

/-- `Object.keys(currentExp).length > 0`. -/
def expHasKeys (e : WorkExp) : Bool :=
  e.title.isSome || e.organization.isSome || e.dates.isSome ||
  e.location.isSome || e.summary.isSome || e.highlights.isSome

/-- One iteration of the `parseWorkExperience` line loop, in the source's
priority order: title, parenthesized organization, dates, location,
bullet highlight, long summary line, otherwise drop. -/
def workStep (st : List WorkExp × WorkExp) (rawLine : List Char) :
    List WorkExp × WorkExp :=
  let exps := st.1
  let cur := st.2
  let line := jsTrim rawLine
  if titleTest line then
    ((if expHasKeys cur then exps ++ [cur] else exps),
     { emptyExp with title := some line })
  else if hasChar '(' line && hasChar ')' line then
    match parenCapture line with
    | some org => (exps, { cur with organization := some org })
    | none => (exps, cur)
  else if hasFourDigits line &&
      (containsSub (s2l "Present") line || containsSub (s2l "Current") line ||
       hasChar '-' line || containsSub (s2l "to") line) then
    (exps, { cur with dates := some line })
  else if hasChar ',' line && endsTwoUpper line then
    (exps, { cur with location := some line })
  else if decide (line.head? = some '•') || decide (line.head? = some '-') ||
      decide (line.head? = some '*') then
    (exps, { cur with highlights := some ((cur.highlights.getD []) ++ [jsTrim (line.drop 1)]) })
  else if decide (20 < line.length) && cur.summary.isNone then
    (exps, { cur with summary := some line })
  else (exps, cur)

/-- `parseWorkExperience`: split into non-blank lines, run the line state
machine, flush the open entry, then clean every entry's highlights. -/
def parseWorkExperience (text : List Char) : List WorkExp :=
  if text = [] then []
  else
    let lines := (splitOn '\n' text).filter (fun l => jsTrim l ≠ [])
    let st := lines.foldl workStep ([], emptyExp)
    let exps := if expHasKeys st.2 then st.1 ++ [st.2] else st.1
    exps.map (fun e => { e with highlights := some (cleanArray (e.highlights.getD [])) })

/-! ## Skills Parser (`parseSkills`) -/

/-- `/^[A-Z][a-zA-Z\s]+:$/.test(line)`: a category header line. -/
def headerTest (l : List Char) : Bool :=
  match l with
  | [] => false
  | c :: rest =>
    isUpperAZ c && decide (rest.dropLast ≠ []) &&
    rest.dropLast.all (fun d => isAlphaAZ d || isWsChar d) &&
    decide (rest.getLast? = some ':')

/-- `.replace(':', '')`: remove the first colon. -/
def replaceFirstColon : List Char → List Char
  | [] => []
  | c :: rest => if c = ':' then rest else c :: replaceFirstColon rest

/-- `.replace(/^[•\-]\s*/, '')`: strip one leading bullet and the
whitespace after it, if present. -/
def stripBullet (l : List Char) : List Char :=
  match l with
  | [] => []
  | c :: rest => if c = '•' ∨ c = '-' then rest.dropWhile isWsChar else l

/-- `if (!skills[cat]) skills[cat] = []; skills[cat].push(...items)`. -/
def objAppend (m : List (List Char × List (List Char))) (k : List Char)
    (xs : List (List Char)) : List (List Char × List (List Char)) :=
  match objGet m k with
  | some v => objSet m k (v ++ xs)
  | none => m ++ [(k, xs)]

/-- One iteration of the `parseSkills` line loop: a category header
switches the current category and resets its list; a comma or bullet line
contributes split skill tokens; a short line contributes itself. -/
def skillsStep (st : List (List Char × List (List Char)) × List Char)
    (line : List Char) : List (List Char × List (List Char)) × List Char :=
  let skills := st.1
  let currentCategory := st.2
  let trimmed := jsTrim line
  if headerTest trimmed then
    (objSet skills (replaceFirstColon trimmed) [], replaceFirstColon trimmed)
  else if hasChar ',' trimmed || decide (trimmed.head? = some '•') ||
      decide (trimmed.head? = some '-') then
    let skillList :=
      ((splitOn ',' (stripBullet trimmed)).map jsTrim).filter
        (fun s => decide (0 < s.length))
    (objAppend skills currentCategory skillList, currentCategory)
  else if decide (0 < trimmed.length) && decide (trimmed.length < 50) then
    (objAppend skills currentCategory [trimmed], currentCategory)
  else (skills, currentCategory)

/-- `parseSkills`: run the line loop from category `"Other"`, then clean
every category's list. -/
def parseSkills (text : List Char) : List (List Char × List (List Char)) :=
  if text = [] then []
  else
    let lines := (splitOn '\n' text).filter (fun l => jsTrim l ≠ [])
    let st := lines.foldl skillsStep ([], s2l "Other")
    st.1.map (fun kv => (kv.1, cleanArray kv.2))

/-! ## Digest Builder (`buildRelevantResumeText`) -/

/-- The `Object.entries(sections).filter(...)` step: keep entries whose
content is non-empty after trimming and not an exact duplicate (by
trimmed equality) of an earlier kept entry. -/
def dedupEntries (seen : List (List Char)) :
    List (List Char × List Char) → List (List Char × List Char)
  | [] => []
  | (k, v) :: rest =>
    if v ≠ [] ∧ 0 < (jsTrim v).length ∧ jsTrim v ∉ seen then
      (k, v) :: dedupEntries (jsTrim v :: seen) rest
    else dedupEntries seen rest

/-- Stable insertion (for the stable JS sort with comparator
`b.length - a.length`): an element goes before the first element of
smaller-or-equal content length. -/
def insertByLen (x : List Char × List Char) :
    List (List Char × List Char) → List (List Char × List Char)
  | [] => [x]
  | y :: rest =>
    if y.2.length ≤ x.2.length then x :: y :: rest else y :: insertByLen x rest

/-- `sectionEntries.sort((a, b) => b[1].length - a[1].length)`: stable
sort by content length, longest first. -/
def sortByLenDesc (l : List (List Char × List Char)) :
    List (List Char × List Char) :=
  l.foldr insertByLen []

/-- The greedy budget loop of `buildRelevantResumeText`, returning the
included `(name, content)` pairs: a section that fits is included whole;
the first that does not fit is truncated to the remaining budget when
more than 200 characters remain, else dropped — and either way the loop
stops there. -/
def digestEntries (maxTotalLength : Nat) :
    Nat → List (List Char × List Char) → List (List Char × List Char)
  | _, [] => []
  | totalLength, (name, content) :: rest =>
    if maxTotalLength < totalLength + content.length then
      (if 200 < maxTotalLength - totalLength then
        [(name, content.take (maxTotalLength - totalLength))]
      else [])
    else (name, content) :: digestEntries maxTotalLength (totalLength + content.length) rest

/-- Rendering of one included pair. -/
def delimBlock (name content : List Char) : List Char :=
  s2l "=== " ++ name ++ s2l " ===\n" ++ content

/-- `buildRelevantResumeText(sections, maxTotalLength)`. -/
def buildRelevantResumeText (sections : List (List Char × List Char))
    (maxTotalLength : Nat) : List Char :=
  List.intercalate (s2l "\n\n")
    ((digestEntries maxTotalLength 0 (sortByLenDesc (dedupEntries [] sections))).map
      (fun e => delimBlock e.1 e.2))

/-! ## Result Assembler (the `/api/parse` patch logic)

The external structuring output is, per its interface contract, a JSON
object (or absent/`null` when the call produced nothing usable); it is
modelled as `Option` of a field list over an untyped JSON value type.
The heuristic record's entry lists are opaque JSON values to the
assembler, so they are carried as such. -/

inductive JsonVal where
  | null : JsonVal
  | boolean : Bool → JsonVal
  | num : Int → JsonVal
  | str : List Char → JsonVal
  | arr : List JsonVal → JsonVal
  | obj : List (List Char × JsonVal) → JsonVal

/-- The patch-loop replacement test: key missing, `null`, an empty
array, or an object without keys (`typeof x === 'object'` is false for
strings, numbers and booleans). -/
def emptyish : Option JsonVal → Bool
  | none => true
  | some JsonVal.null => true
  | some (JsonVal.arr xs) => xs.isEmpty
  | some (JsonVal.obj fs) => fs.isEmpty
  | some _ => false

/-- JS `x.length` as an optional value (`undefined` when absent). -/
def jsDotLength : JsonVal → Option Nat
  | JsonVal.arr xs => some xs.length
  | JsonVal.str s => some s.length
  | _ => none

/-- `x == null || x.length === 0`, the positions-fallback test. -/
def lengthIsZero : Option JsonVal → Bool
  | none => true
  | some JsonVal.null => true
  | some v =>
    match jsDotLength v with
    | some n => decide (n = 0)
    | none => false

/-- The heuristic record as the assembler sees it. -/
structure ParsedRecord where
  name : List Char
  email : List Char
  phone : List Char
  location : List Char
  work_experience : List JsonVal
  education : List JsonVal
  skills : List (List Char × JsonVal)

/-- The seven required top-level keys, in patch order. -/
def requiredKeys : List (List Char) :=
  [s2l "profile", s2l "education", s2l "positions", s2l "publications",
   s2l "projects", s2l "skills", s2l "awards"]

/-- `parsedFallback`: the heuristic-derived record used to patch the
external output. -/
def parsedFallback (p : ParsedRecord) : List (List Char × JsonVal) :=
  [(s2l "profile", JsonVal.obj
      [(s2l "name", JsonVal.str p.name), (s2l "email", JsonVal.str p.email),
       (s2l "phone", JsonVal.str p.phone), (s2l "location", JsonVal.str p.location),
       (s2l "summary", JsonVal.str []), (s2l "social", JsonVal.arr [])]),
   (s2l "education", JsonVal.arr p.education),
   (s2l "positions", JsonVal.arr p.work_experience),
   (s2l "publications", JsonVal.arr []),
   (s2l "projects", JsonVal.arr []),
   (s2l "skills", JsonVal.obj p.skills),
   (s2l "awards", JsonVal.arr [])]

/-- `parsedFallback[key]`. -/
def fallbackVal (p : ParsedRecord) (k : List Char) : JsonVal :=
  (objGet (parsedFallback p) k).getD JsonVal.null

/-- One iteration of the required-keys patch loop. -/
def patchStep (p : ParsedRecord) (acc : List (List Char × JsonVal))
    (k : List Char) : List (List Char × JsonVal) :=
  if emptyish (objGet acc k) = true then objSet acc k (fallbackVal p k) else acc

def patchKeys (p : ParsedRecord) (fs : List (List Char × JsonVal)) :
    List (List Char × JsonVal) :=
  requiredKeys.foldl (patchStep p) fs

/-- `academicJson` after the wholesale-fallback test and the per-key
patch loop: absent or key-less output is replaced entirely. -/
def patchedRecord (p : ParsedRecord)
    (ext : Option (List (List Char × JsonVal))) : List (List Char × JsonVal) :=
  match ext with
  | none => parsedFallback p
  | some fs => if fs.isEmpty then parsedFallback p else patchKeys p fs

/-- The final positions fallback and the assembled record. -/
def assembleFinal (p : ParsedRecord)
    (ext : Option (List (List Char × JsonVal))) : List (List Char × JsonVal) :=
  let base := patchedRecord p ext
  if lengthIsZero (objGet base (s2l "positions")) && !p.work_experience.isEmpty then
    objSet base (s2l "positions") (JsonVal.arr p.work_experience)
  else base

/-- Lookup of a key in the external output (`undefined` when absent). -/
def extGet (ext : Option (List (List Char × JsonVal))) (k : List Char) :
    Option JsonVal :=
  match ext with
  | none => none
  | some fs => objGet fs k

/-! ## Concrete instances used by individual claims -/

/-- Section map with two 300-character sections, used against budget 500:
after the first section exactly 200 characters of budget remain. -/
def c5secs : List (List Char × List Char) :=
  [(s2l "A", List.replicate 300 'a'), (s2l "B", List.replicate 300 'b')]

/-- A heuristic record with a two-entry work-experience list. -/
def c6parsed : ParsedRecord :=
  ⟨[], [], [], [], [JsonVal.str (s2l "one"), JsonVal.str (s2l "two")], [], []⟩

/-- External output whose `positions` is the empty list. -/
def c6ext : Option (List (List Char × JsonVal)) :=
  some [(s2l "positions", JsonVal.arr [])]

/-- External output whose `positions` is the empty string: it survives
the per-key patch loop but has `.length === 0`. -/
def c6extB : Option (List (List Char × JsonVal)) :=
  some [(s2l "positions", JsonVal.str [])]

/-- A heuristic record for the assembler-completeness witness. -/
def c1parsed : ParsedRecord :=
  ⟨s2l "Ada", s2l "ada@x.io", [], [], [JsonVal.str (s2l "job")], [], []⟩

/-- External output with a `null` profile and everything else missing. -/
def c1ext : Option (List (List Char × JsonVal)) :=
  some [(s2l "profile", JsonVal.null)]

/-! # Helper lemmas -/

/-- Sanity: the spec's skills golden test. -/
theorem parseSkills_golden :
    parseSkills (s2l "Languages:\nPython, Go, Rust\nTools:\nGit\n") =
      [(s2l "Languages", [s2l "Python", s2l "Go", s2l "Rust"]),
       (s2l "Tools", [s2l "Git"])] := by decide

/-- Sanity: segmentation of a small two-section document. -/
theorem extractSections_sample :
    extractSectionsByLines (s2l "Intro\nSkills\nPython\nGo\nEducation\nMIT")
      [s2l "Skills", s2l "Education"] =
    [(s2l "skills", s2l "Python\nGo"), (s2l "education", s2l "MIT")] := by decide

/-- Sanity: digest rendering orders sections by length descending. -/
theorem buildRelevantResumeText_sample :
    buildRelevantResumeText
      [(s2l "skills", s2l "Python"), (s2l "education", s2l "MIT here")] 8000 =
    s2l "=== education ===\nMIT here\n\n=== skills ===\nPython" := by decide

theorem objGet_objSet_self {V : Type} (m : List (List Char × V)) (k : List Char)
    (v : V) : objGet (objSet m k v) k = some v := by
  induction m with
  | nil => simp [objSet, objGet]
  | cons e rest ih =>
    obtain ⟨k₀, v₀⟩ := e
    by_cases h : k₀ = k
    · simp [objSet, objGet, h]
    · simp [objSet, objGet, h, ih]

theorem objGet_objSet_ne {V : Type} (m : List (List Char × V)) (k k' : List Char)
    (v : V) (h : k' ≠ k) : objGet (objSet m k v) k' = objGet m k' := by
  have h' : k ≠ k' := Ne.symm h
  induction m with
  | nil => simp [objSet, objGet, h']
  | cons e rest ih =>
    obtain ⟨k₀, v₀⟩ := e
    by_cases h0 : k₀ = k
    · subst h0
      simp [objSet, objGet, h']
    · simp [objSet, objGet, h0, ih]

/-! # C2: digest budget invariant -/

theorem digestEntries_total_le (B : Nat) :
    ∀ (l : List (List Char × List Char)) (total : Nat), total ≤ B →
      total + ((digestEntries B total l).map (fun e => e.2.length)).sum ≤ B := by
  intro l
  induction l with
  | nil => intro total h; simpa [digestEntries] using h
  | cons e rest ih =>
    intro total h
    obtain ⟨name, content⟩ := e
    by_cases hov : B < total + content.length
    · by_cases h200 : 200 < B - total
      · have h1 : min (B - total) content.length ≤ B - total := Nat.min_le_left _ _
        simp [digestEntries, hov, h200, List.length_take]
        omega
      · simp [digestEntries, hov, h200]
        exact h
    · have h2 : total + content.length ≤ B := Nat.le_of_not_lt hov
      have h3 := ih (total + content.length) h2
      simp only [digestEntries, if_neg hov, List.map_cons, List.sum_cons]
      omega

/-- Claim C2: for every section map and every character budget, the
digest's total included section-content character count (the content of
the included pairs, excluding the delimiter blocks) never exceeds the
budget. -/
theorem c2_digest_budget (sections : List (List Char × List Char)) (B : Nat) :
    ((digestEntries B 0 (sortByLenDesc (dedupEntries [] sections))).map
      (fun e => e.2.length)).sum ≤ B := by
  simpa using digestEntries_total_le B (sortByLenDesc (dedupEntries [] sections)) 0 (Nat.zero_le B)

/-! # C5: the 200-character truncation threshold -/

/-- Claim C5 (amended): when a section's full content would exceed the
remaining budget, a truncated prefix of it is included if and only if
strictly more than 200 characters of budget remain; in either case no
later section is considered. -/
theorem c5_truncation_threshold (B total : Nat) (name content : List Char)
    (rest : List (List Char × List Char)) (h : B < total + content.length) :
    digestEntries B total ((name, content) :: rest) =
      if 200 < B - total then [(name, content.take (B - total))] else [] := by
  simp [digestEntries, h]

set_option maxRecDepth 40000 in
/-- Counterexample to claim C5 as stated: with budget 500 and two
300-character sections, after including the first section exactly 200
characters remain — "at least 200" — yet the second section is dropped
entirely rather than truncated. -/
theorem c5_counterexample :
    200 ≤ 500 - (List.replicate 300 'a').length ∧
      digestEntries 500 0 (sortByLenDesc (dedupEntries [] c5secs)) =
        [(s2l "A", List.replicate 300 'a')] := by
  constructor
  · decide
  · decide

set_option maxRecDepth 40000 in
theorem c5_truncation_threshold_witness :
    500 < 200 + (List.replicate 400 'x').length ∧
      digestEntries 500 200 [(s2l "B", List.replicate 400 'x')] =
        (if 200 < 500 - 200 then
          [(s2l "B", (List.replicate 400 'x').take (500 - 200))]
        else []) :=
  ⟨by decide, c5_truncation_threshold 500 200 (s2l "B") (List.replicate 400 'x') [] (by decide)⟩

/-! # C4: repeated skills category headers -/

/-- Counterexample to claim C4 as stated: after the category header
`Languages:` appears a second time, the previously collected skill
`Python` is NOT preserved — the header line resets the category's list
unconditionally. -/
theorem c4_counterexample :
    s2l "Python" ∉
      (objGet (parseSkills (s2l "Languages:\nPython\nLanguages:\nGo\n"))
        (s2l "Languages")).getD [] := by
  decide

/-- Claim C4 (amended): a category-header line switches the current
category and unconditionally resets that category's list to the empty
list (even when the category already holds skills); in particular a
repeated `Languages:` header discards the previously collected skills. -/
theorem c4_header_resets_category :
    (∀ (skills : List (List Char × List (List Char))) (cat line : List Char),
        headerTest (jsTrim line) = true →
        skillsStep (skills, cat) line =
          (objSet skills (replaceFirstColon (jsTrim line)) [],
           replaceFirstColon (jsTrim line))) ∧
      parseSkills (s2l "Languages:\nPython\nLanguages:\nGo\n") =
        [(s2l "Languages", [s2l "Go"])] := by
  constructor
  · intro skills cat line h
    simp [skillsStep, h]
  · decide

theorem c4_header_resets_category_witness :
    headerTest (jsTrim (s2l "Languages:")) = true ∧
      skillsStep ([(s2l "Languages", [s2l "Python"])], s2l "Languages")
          (s2l "Languages:") =
        (objSet [(s2l "Languages", [s2l "Python"])]
          (replaceFirstColon (jsTrim (s2l "Languages:"))) [],
         replaceFirstColon (jsTrim (s2l "Languages:"))) :=
  ⟨by decide,
   c4_header_resets_category.1 [(s2l "Languages", [s2l "Python"])]
     (s2l "Languages") (s2l "Languages:") (by decide)⟩

/-! # C3: work-experience round trip -/

/-- Claim C3: the synthetic work-experience section yields exactly one
entry with the expected title, organization, dates, location, a set
summary, and the duplicate bullet deduplicated to a single highlight. -/
theorem c3_work_experience_round_trip :
    parseWorkExperience (s2l "Senior Engineer\n(Acme Corp)\n2020 - Present\nAustin, TX\nThis is a long enough summary line.\n• Built thing one\n• Built thing one\n") =
      [⟨some (s2l "Senior Engineer"), some (s2l "Acme Corp"),
        some (s2l "2020 - Present"), some (s2l "Austin, TX"),
        some (s2l "This is a long enough summary line."),
        some [s2l "Built thing one"]⟩] := by
  decide

/-! # C10: entries without a title -/

/-- Claim C10: a section text with no title-like line but one dates line
produces one entry whose `title` field is absent — field lines seen
before any title line accumulate into an entry flushed at end of input. -/
theorem c10_title_less_entry :
    titleTest (jsTrim (s2l "2020 - Present")) = false ∧
      parseWorkExperience (s2l "2020 - Present") =
        [⟨none, none, some (s2l "2020 - Present"), none, none, some []⟩] := by
  constructor
  · decide
  · decide

/-! # C7 and C8: Section Segmenter -/

theorem buildSections_notmem (lines : List (List Char)) (norms : List (List Char))
    (res : List (List Char × List Char)) (k : List Char) (h : k ∉ norms) :
    objGet (buildSections lines norms res) k = objGet res k := by
  induction norms generalizing res with
  | nil => rfl
  | cons sec rest ih =>
    have hks : k ≠ sec := by rintro rfl; exact h (List.mem_cons_self _ _)
    have hkr : k ∉ rest := fun hm => h (List.mem_cons_of_mem _ hm)
    simp only [buildSections]
    rw [ih _ hkr, objGet_objSet_ne _ _ _ _ hks]

theorem buildSections_mem_some (lines : List (List Char)) (norms : List (List Char))
    (res : List (List Char × List Char)) (k : List Char) (hmem : k ∈ norms) :
    ∃ v, objGet (buildSections lines norms res) k = some v := by
  induction norms generalizing res with
  | nil => cases hmem
  | cons sec rest ih =>
    by_cases hk : k ∈ rest
    · simpa only [buildSections] using ih _ hk
    · have hsec : sec = k := by
        rcases List.mem_cons.mp hmem with h1 | h2
        · exact h1.symm
        · exact absurd h2 hk
      subst hsec
      simp only [buildSections]
      rw [buildSections_notmem _ _ _ _ hk, objGet_objSet_self]
      exact ⟨_, rfl⟩

theorem buildSections_mem_nomatch (lines : List (List Char)) (norms : List (List Char))
    (res : List (List Char × List Char)) (k : List Char)
    (hnone : sectionStartIdx lines k = none) (hmem : k ∈ norms) :
    objGet (buildSections lines norms res) k = some [] := by
  induction norms generalizing res with
  | nil => cases hmem
  | cons sec rest ih =>
    by_cases hk : k ∈ rest
    · simpa only [buildSections] using ih _ hk
    · have hsec : sec = k := by
        rcases List.mem_cons.mp hmem with h1 | h2
        · exact h1.symm
        · exact absurd h2 hk
      subst hsec
      simp only [buildSections]
      rw [buildSections_notmem _ _ _ _ hk, objGet_objSet_self]
      simp [sectionContent, hnone]

theorem sectionStartIdxGo_none (sec : List Char) (ls : List (List Char)) (i : Nat)
    (h : ∀ line ∈ ls, sectionMatch (normList line) sec = false) :
    sectionStartIdxGo sec i ls = none := by
  induction ls generalizing i with
  | nil => rfl
  | cons line rest ih =>
    have h1 := h line (List.mem_cons_self _ _)
    simp only [sectionStartIdxGo, h1, Bool.false_eq_true, if_false]
    exact ih _ (fun l hl => h l (List.mem_cons_of_mem _ hl))

/-- Claim C7: every candidate name appears (normalized) as a key of the
segmenter's output, and a candidate whose normalized form matches no
line of the document maps to the empty string. -/
theorem c7_segmenter_totality (text : List Char) (names : List (List Char))
    (name : List Char) (hmem : name ∈ names) :
    ∃ v, objGet (extractSectionsByLines text names) (normList name) = some v ∧
      ((∀ line ∈ linesOf text,
          sectionMatch (normList line) (normList name) = false) → v = []) := by
  have hk : normList name ∈ names.map normList := List.mem_map_of_mem _ hmem
  simp only [extractSectionsByLines]
  obtain ⟨v, hv⟩ :=
    buildSections_mem_some (linesOf text) (names.map normList) [] (normList name) hk
  refine ⟨v, hv, fun hno => ?_⟩
  have hnone : sectionStartIdx (linesOf text) (normList name) = none :=
    sectionStartIdxGo_none _ _ 0 hno
  have h2 := buildSections_mem_nomatch (linesOf text) (names.map normList) []
    (normList name) hnone hk
  rw [hv] at h2
  exact Option.some.inj h2

theorem c7_segmenter_totality_witness :
    (s2l "Education") ∈ [s2l "Education"] ∧
      ∃ v, objGet (extractSectionsByLines (s2l "Hello\nWorld") [s2l "Education"])
          (normList (s2l "Education")) = some v ∧
        ((∀ line ∈ linesOf (s2l "Hello\nWorld"),
            sectionMatch (normList line) (normList (s2l "Education")) = false) →
          v = []) :=
  ⟨by decide,
   c7_segmenter_totality (s2l "Hello\nWorld") [s2l "Education"] (s2l "Education")
     (by decide)⟩

theorem sectionStartIdxGo_spec (sec : List Char) (ls : List (List Char)) :
    ∀ (i n : Nat), sectionStartIdxGo sec i ls = some n →
      i ≤ n ∧ n - i < ls.length ∧
        sectionMatch (normList (ls.getD (n - i) [])) sec = true ∧
        ∀ m, m < n - i → sectionMatch (normList (ls.getD m [])) sec = false := by
  induction ls with
  | nil => intro i n h; cases h
  | cons line rest ih =>
    intro i n h
    by_cases hm : sectionMatch (normList line) sec = true
    · rw [sectionStartIdxGo, if_pos hm] at h
      have hn : i = n := Option.some.inj h
      subst hn
      refine ⟨Nat.le_refl _, by simp, ?_, fun m hm' => absurd hm' (by omega)⟩
      simpa [Nat.sub_self] using hm
    · rw [sectionStartIdxGo, if_neg hm] at h
      obtain ⟨h1, h2, h3, h4⟩ := ih (i + 1) n h
      have hi : i ≤ n := by omega
      have hni : n - i = (n - (i + 1)) + 1 := by omega
      refine ⟨hi, by simp only [List.length_cons]; omega, ?_, ?_⟩
      · rw [hni]
        simpa using h3
      · intro m hm'
        cases m with
        | zero =>
          simpa [Bool.not_eq_true] using hm
        | succ m' =>
          have hm'' : m' < n - (i + 1) := by omega
          simpa using h4 m' hm''

/-- Claim C8: a recorded section start index always points at the first
line whose normalized form equals, contains, or is contained in the
normalized candidate; every earlier line fails the fuzzy match, so with
two identical header lines only the first line's position is used. -/
theorem c8_segmenter_first_match (lines : List (List Char)) (sec : List Char)
    (n : Nat) (h : sectionStartIdx lines sec = some n) :
    n < lines.length ∧ sectionMatch (normList (lines.getD n [])) sec = true ∧
      ∀ m, m < n → sectionMatch (normList (lines.getD m [])) sec = false := by
  obtain ⟨h1, h2, h3, h4⟩ := sectionStartIdxGo_spec sec lines 0 n h
  exact ⟨by simpa using h2, by simpa using h3, fun m hm => by simpa using h4 m (by omega)⟩

theorem c8_segmenter_first_match_witness :
    sectionStartIdx (linesOf (s2l "Skills\nPython\nSkills\nJava"))
        (normList (s2l "Skills")) = some 0 ∧
      (0 < (linesOf (s2l "Skills\nPython\nSkills\nJava")).length ∧
        sectionMatch
          (normList ((linesOf (s2l "Skills\nPython\nSkills\nJava")).getD 0 []))
          (normList (s2l "Skills")) = true ∧
        ∀ m, m < 0 →
          sectionMatch
            (normList ((linesOf (s2l "Skills\nPython\nSkills\nJava")).getD m []))
            (normList (s2l "Skills")) = false) :=
  ⟨by decide, c8_segmenter_first_match _ _ 0 (by decide)⟩

/-! # C1 and C6: Result Assembler -/

theorem objGet_patchStep_self (p : ParsedRecord) (acc : List (List Char × JsonVal))
    (k : List Char) :
    objGet (patchStep p acc k) k =
      if emptyish (objGet acc k) = true then some (fallbackVal p k)
      else objGet acc k := by
  by_cases h : emptyish (objGet acc k) = true
  · simp [patchStep, h, objGet_objSet_self]
  · simp [patchStep, h]

theorem objGet_patchStep_ne (p : ParsedRecord) (acc : List (List Char × JsonVal))
    (k k' : List Char) (h : k' ≠ k) :
    objGet (patchStep p acc k) k' = objGet acc k' := by
  by_cases hc : emptyish (objGet acc k) = true
  · simp [patchStep, hc, objGet_objSet_ne _ _ _ _ h]
  · simp [patchStep, hc]

theorem objGet_foldl_patch_notmem (p : ParsedRecord) (ks : List (List Char)) :
    ∀ (k : List Char), k ∉ ks → ∀ acc,
      objGet (ks.foldl (patchStep p) acc) k = objGet acc k := by
  induction ks with
  | nil => intro k _ acc; rfl
  | cons a t ih =>
    intro k h acc
    have hka : k ≠ a := by rintro rfl; exact h (List.mem_cons_self _ _)
    have hkt : k ∉ t := fun hm => h (List.mem_cons_of_mem _ hm)
    rw [List.foldl_cons, ih k hkt _, objGet_patchStep_ne p acc a k hka]

theorem objGet_foldl_patch_mem (p : ParsedRecord) (ks : List (List Char)) :
    ∀ (k : List Char), k ∈ ks → ks.Nodup → ∀ acc,
      objGet (ks.foldl (patchStep p) acc) k =
        if emptyish (objGet acc k) = true then some (fallbackVal p k)
        else objGet acc k := by
  induction ks with
  | nil => intro k hmem; cases hmem
  | cons a t ih =>
    intro k hmem hnd acc
    obtain ⟨hat, hndt⟩ := List.nodup_cons.mp hnd
    rw [List.foldl_cons]
    rcases List.mem_cons.mp hmem with rfl | hmt
    · rw [objGet_foldl_patch_notmem p t k hat _, objGet_patchStep_self]
    · have hka : k ≠ a := by rintro rfl; exact hat hmt
      rw [ih k hmt hndt _, objGet_patchStep_ne p acc a k hka]

theorem requiredKeys_nodup : requiredKeys.Nodup := by decide

theorem objGet_parsedFallback (p : ParsedRecord) (k : List Char)
    (hk : k ∈ requiredKeys) :
    objGet (parsedFallback p) k = some (fallbackVal p k) := by
  simp only [requiredKeys, List.mem_cons, List.not_mem_nil, or_false] at hk
  rcases hk with rfl | rfl | rfl | rfl | rfl | rfl | rfl <;> rfl

theorem fallbackVal_ne_null (p : ParsedRecord) (k : List Char)
    (hk : k ∈ requiredKeys) : fallbackVal p k ≠ JsonVal.null := by
  simp only [requiredKeys, List.mem_cons, List.not_mem_nil, or_false] at hk
  rcases hk with rfl | rfl | rfl | rfl | rfl | rfl | rfl <;>
    exact fun h => JsonVal.noConfusion h

theorem objGet_patchedRecord (p : ParsedRecord)
    (ext : Option (List (List Char × JsonVal))) (k : List Char)
    (hk : k ∈ requiredKeys) :
    objGet (patchedRecord p ext) k =
      if emptyish (extGet ext k) = true then some (fallbackVal p k)
      else extGet ext k := by
  cases ext with
  | none =>
    have h1 : emptyish (extGet none k) = true := rfl
    rw [if_pos h1]
    exact objGet_parsedFallback p k hk
  | some fs =>
    cases fs with
    | nil =>
      have h1 : emptyish (extGet (some []) k) = true := rfl
      rw [if_pos h1]
      exact objGet_parsedFallback p k hk
    | cons e fs' =>
      show objGet (patchKeys p (e :: fs')) k = _
      exact objGet_foldl_patch_mem p requiredKeys k hk requiredKeys_nodup (e :: fs')

/-- Claim C1: for every shape of the external structuring output (absent,
empty object, keys missing, null values, empty lists, empty mappings),
the assembled record has every required key present with a non-null
value, and a key whose external value was missing/null/empty is filled
with the heuristic-derived fallback value. -/
theorem c1_assembler_completeness (p : ParsedRecord)
    (ext : Option (List (List Char × JsonVal))) (k : List Char)
    (hk : k ∈ requiredKeys) :
    ∃ v, objGet (assembleFinal p ext) k = some v ∧ v ≠ JsonVal.null ∧
      (emptyish (extGet ext k) = true → v = fallbackVal p k) := by
  have hbase := objGet_patchedRecord p ext k hk
  have hgen : ∀ (m : List (List Char × JsonVal)),
      objGet m k =
        (if emptyish (extGet ext k) = true then some (fallbackVal p k)
         else extGet ext k) →
      ∃ v, objGet m k = some v ∧ v ≠ JsonVal.null ∧
        (emptyish (extGet ext k) = true → v = fallbackVal p k) := by
    intro m hm
    by_cases he : emptyish (extGet ext k) = true
    · rw [if_pos he] at hm
      exact ⟨_, hm, fallbackVal_ne_null p k hk, fun _ => rfl⟩
    · rw [if_neg he] at hm
      cases hx : extGet ext k with
      | none => rw [hx] at he; exact absurd rfl he
      | some v =>
        rw [hx] at hm he
        refine ⟨v, hm, ?_, fun hemp => absurd hemp he⟩
        rintro rfl
        exact he rfl
  by_cases hpos : k = s2l "positions"
  · subst hpos
    simp only [assembleFinal]
    by_cases hc : (lengthIsZero (objGet (patchedRecord p ext) (s2l "positions")) &&
        !p.work_experience.isEmpty) = true
    · rw [if_pos hc, objGet_objSet_self]
      exact ⟨_, rfl, fun h => JsonVal.noConfusion h, fun _ => rfl⟩
    · rw [if_neg hc]
      exact hgen _ hbase
  · have hstep : objGet (assembleFinal p ext) k = objGet (patchedRecord p ext) k := by
      simp only [assembleFinal]
      by_cases hc : (lengthIsZero (objGet (patchedRecord p ext) (s2l "positions")) &&
          !p.work_experience.isEmpty) = true
      · rw [if_pos hc, objGet_objSet_ne _ _ _ _ hpos]
      · rw [if_neg hc]
    rw [hstep]
    exact hgen _ hbase

theorem c1_assembler_completeness_witness :
    (s2l "education") ∈ requiredKeys ∧
      ∃ v, objGet (assembleFinal c1parsed c1ext) (s2l "education") = some v ∧
        v ≠ JsonVal.null ∧
        (emptyish (extGet c1ext (s2l "education")) = true →
          v = fallbackVal c1parsed (s2l "education")) :=
  ⟨by decide, c1_assembler_completeness c1parsed c1ext (s2l "education") (by decide)⟩

/-- Claim C6: if after the per-key patch loop the record's `positions`
value is still empty (`== null` or `.length === 0`) and the heuristic
work-experience list is non-empty, the final `positions` is exactly the
heuristic work-experience list; and in particular an external output
with `positions: []` against a two-entry heuristic list yields those two
entries. -/
theorem c6_positions_fallback :
    (∀ (p : ParsedRecord) (ext : Option (List (List Char × JsonVal))),
        lengthIsZero (objGet (patchedRecord p ext) (s2l "positions")) = true →
        p.work_experience ≠ [] →
        objGet (assembleFinal p ext) (s2l "positions") =
          some (JsonVal.arr p.work_experience)) ∧
      objGet (assembleFinal c6parsed c6ext) (s2l "positions") =
        some (JsonVal.arr [JsonVal.str (s2l "one"), JsonVal.str (s2l "two")]) := by
  constructor
  · intro p ext h hwe
    have hb : (!p.work_experience.isEmpty) = true := by
      cases hwe' : p.work_experience with
      | nil => exact absurd hwe' hwe
      | cons a l => rfl
    have hc : (lengthIsZero (objGet (patchedRecord p ext) (s2l "positions")) &&
        !p.work_experience.isEmpty) = true := by
      rw [h, hb]
      rfl
    simp only [assembleFinal]
    rw [if_pos hc, objGet_objSet_self]
  · rfl

theorem c6_positions_fallback_witness :
    lengthIsZero (objGet (patchedRecord c6parsed c6extB) (s2l "positions")) = true ∧
      c6parsed.work_experience ≠ [] ∧
      objGet (assembleFinal c6parsed c6extB) (s2l "positions") =
        some (JsonVal.arr c6parsed.work_experience) :=
  ⟨rfl, fun h => List.noConfusion h,
   c6_positions_fallback.1 c6parsed c6extB rfl (fun h => List.noConfusion h)⟩

/-! # C9: normalizer idempotence -/

theorem toLowerJs_kept (c : Char) (h : keptChar c = true) : toLowerJs c = c := by
  have hn : ¬ isUpperAZ c = true := by
    simp only [keptChar, isLowerAZ, isDigit09, Bool.or_eq_true, Bool.and_eq_true,
      decide_eq_true_eq] at h
    simp only [isUpperAZ, Bool.and_eq_true, decide_eq_true_eq, not_and]
    omega
  simp [toLowerJs, hn]

theorem kept_not_amp (c : Char) (h : keptChar c = true) : c ≠ '&' := by
  rintro rfl
  exact absurd h (by decide)

theorem map_toLowerJs_id (l : List Char) (h : ∀ c ∈ l, keptChar c = true) :
    l.map toLowerJs = l := by
  induction l with
  | nil => rfl
  | cons c rest ih =>
    rw [List.map_cons, toLowerJs_kept c (h c (List.mem_cons_self _ _)),
      ih (fun d hd => h d (List.mem_cons_of_mem _ hd))]

theorem ampToAnd_id (l : List Char) (h : ∀ c ∈ l, keptChar c = true) :
    ampToAnd l = l := by
  induction l with
  | nil => rfl
  | cons c rest ih =>
    have hc : c ≠ '&' := kept_not_amp c (h c (List.mem_cons_self _ _))
    simp only [ampToAnd, if_neg hc, List.singleton_append, List.cons.injEq, true_and]
    exact ih (fun d hd => h d (List.mem_cons_of_mem _ hd))

theorem filter_kept_id (l : List Char) (h : ∀ c ∈ l, keptChar c = true) :
    l.filter keptChar = l := by
  induction l with
  | nil => rfl
  | cons c rest ih =>
    rw [List.filter_cons_of_pos (h c (List.mem_cons_self _ _)),
      ih (fun d hd => h d (List.mem_cons_of_mem _ hd))]

theorem noWsRun_tail {a : Char} {l : List Char} (h : noWsRun (a :: l) = true) :
    noWsRun l = true := by
  cases l with
  | nil => rfl
  | cons b t =>
    simp only [noWsRun, Bool.and_eq_true] at h
    exact h.2

theorem headNotWs_of_nwr_ws {a : Char} {l : List Char} (ha : isWsChar a = true)
    (h : noWsRun (a :: l) = true) : headNotWs l := by
  cases l with
  | nil => intro c hc; cases hc
  | cons b t =>
    intro c hc
    rw [List.head?_cons] at hc
    obtain rfl := Option.some.inj hc
    simp only [noWsRun, Bool.and_eq_true] at h
    have h1 := h.1
    cases hb : isWsChar b with
    | false => rfl
    | true => rw [ha, hb] at h1; exact absurd h1 (by decide)

theorem headNotWs_collapseTrue (l : List Char) :
    headNotWs (collapseWsAux true l) := by
  induction l with
  | nil => intro c hc; cases hc
  | cons c rest ih =>
    by_cases hws : isWsChar c = true
    · simpa [collapseWsAux, hws] using ih
    · intro d hd
      rw [show collapseWsAux true (c :: rest) = c :: collapseWsAux false rest from by
        simp [collapseWsAux, hws]] at hd
      rw [List.head?_cons] at hd
      obtain rfl := Option.some.inj hd
      exact Bool.eq_false_iff.mpr hws

theorem noWsRun_collapseAux (l : List Char) :
    ∀ (b : Bool), noWsRun (collapseWsAux b l) = true := by
  induction l with
  | nil => intro b; rfl
  | cons c rest ih =>
    intro b
    by_cases hws : isWsChar c = true
    · cases b with
      | true => simpa [collapseWsAux, hws] using ih true
      | false =>
        rw [show collapseWsAux false (c :: rest) = ' ' :: collapseWsAux true rest from by
          simp [collapseWsAux, hws]]
        have h1 := ih true
        have h2 := headNotWs_collapseTrue rest
        cases hx : collapseWsAux true rest with
        | nil => rfl
        | cons d t =>
          have hd : isWsChar d = false := h2 d (by rw [hx]; rfl)
          rw [hx] at h1
          simp [noWsRun, hd, h1]
    · have hc : isWsChar c = false := Bool.eq_false_iff.mpr hws
      rw [show collapseWsAux b (c :: rest) = c :: collapseWsAux false rest from by
        simp [collapseWsAux, hws]]
      have h1 := ih false
      cases hx : collapseWsAux false rest with
      | nil => rfl
      | cons d t =>
        rw [hx] at h1
        simp [noWsRun, hc, h1]

theorem mem_collapseAux (l : List Char) :
    ∀ (b : Bool) (c : Char), c ∈ collapseWsAux b l → c ∈ l ∨ c = ' ' := by
  induction l with
  | nil => intro b c hc; cases hc
  | cons a rest ih =>
    intro b c hc
    by_cases hws : isWsChar a = true
    · cases b with
      | true =>
        rw [show collapseWsAux true (a :: rest) = collapseWsAux true rest from by
          simp [collapseWsAux, hws]] at hc
        rcases ih true c hc with hm | hs
        · exact Or.inl (List.mem_cons_of_mem _ hm)
        · exact Or.inr hs
      | false =>
        rw [show collapseWsAux false (a :: rest) = ' ' :: collapseWsAux true rest from by
          simp [collapseWsAux, hws]] at hc
        rcases List.mem_cons.mp hc with rfl | hm
        · exact Or.inr rfl
        · rcases ih true c hm with hm' | hs
          · exact Or.inl (List.mem_cons_of_mem _ hm')
          · exact Or.inr hs
    · rw [show collapseWsAux b (a :: rest) = a :: collapseWsAux false rest from by
        simp [collapseWsAux, hws]] at hc
      rcases List.mem_cons.mp hc with rfl | hm
      · exact Or.inl (List.mem_cons_self _ _)
      · rcases ih false c hm with hm' | hs
        · exact Or.inl (List.mem_cons_of_mem _ hm')
        · exact Or.inr hs

theorem ws_mem_collapseAux (l : List Char) :
    ∀ (b : Bool) (c : Char), c ∈ collapseWsAux b l → isWsChar c = true → c = ' ' := by
  induction l with
  | nil => intro b c hc; cases hc
  | cons a rest ih =>
    intro b c hc hw
    by_cases hws : isWsChar a = true
    · cases b with
      | true =>
        rw [show collapseWsAux true (a :: rest) = collapseWsAux true rest from by
          simp [collapseWsAux, hws]] at hc
        exact ih true c hc hw
      | false =>
        rw [show collapseWsAux false (a :: rest) = ' ' :: collapseWsAux true rest from by
          simp [collapseWsAux, hws]] at hc
        rcases List.mem_cons.mp hc with rfl | hm
        · rfl
        · exact ih true c hm hw
    · rw [show collapseWsAux b (a :: rest) = a :: collapseWsAux false rest from by
        simp [collapseWsAux, hws]] at hc
      rcases List.mem_cons.mp hc with rfl | hm
      · exact absurd hw (by rw [Bool.eq_false_iff.mpr hws]; exact fun h => Bool.noConfusion h)
      · exact ih false c hm hw

theorem collapseAux_eq_self (l : List Char) :
    ∀ (b : Bool), noWsRun l = true → (∀ c ∈ l, isWsChar c = true → c = ' ') →
      (b = true → headNotWs l) → collapseWsAux b l = l := by
  induction l with
  | nil => intro b _ _ _; rfl
  | cons c rest ih =>
    intro b hnwr hsp hb
    by_cases hws : isWsChar c = true
    · have hcsp : c = ' ' := hsp c (List.mem_cons_self _ _) hws
      cases b with
      | true =>
        have := hb rfl c (by rw [List.head?_cons])
        rw [hws] at this
        exact absurd this (by decide)
      | false =>
        subst hcsp
        rw [show collapseWsAux false (' ' :: rest) = ' ' :: collapseWsAux true rest from by
          simp [collapseWsAux, hws]]
        rw [ih true (noWsRun_tail hnwr)
          (fun d hd hw => hsp d (List.mem_cons_of_mem _ hd) hw)
          (fun _ => headNotWs_of_nwr_ws hws hnwr)]
    · rw [show collapseWsAux b (c :: rest) = c :: collapseWsAux false rest from by
        simp [collapseWsAux, hws]]
      rw [ih false (noWsRun_tail hnwr)
        (fun d hd hw => hsp d (List.mem_cons_of_mem _ hd) hw)
        (fun h => absurd h (by decide))]

theorem exists_dropWhile_append (p : Char → Bool) (l : List Char) :
    ∃ t, l = t ++ l.dropWhile p := by
  induction l with
  | nil => exact ⟨[], rfl⟩
  | cons c rest ih =>
    by_cases hc : p c = true
    · obtain ⟨t, ht⟩ := ih
      refine ⟨c :: t, ?_⟩
      rw [List.dropWhile_cons, if_pos hc, List.cons_append]
      exact congrArg (c :: ·) ht
    · refine ⟨[], ?_⟩
      rw [List.dropWhile_cons, if_neg hc, List.nil_append]

theorem head_dropWhile_false (p : Char → Bool) (l : List Char) :
    ∀ c, (l.dropWhile p).head? = some c → p c = false := by
  induction l with
  | nil => intro c hc; cases hc
  | cons a rest ih =>
    intro c hc
    by_cases ha : p a = true
    · rw [List.dropWhile_cons, if_pos ha] at hc
      exact ih c hc
    · rw [List.dropWhile_cons, if_neg ha, List.head?_cons] at hc
      obtain rfl := Option.some.inj hc
      exact Bool.eq_false_iff.mpr ha

theorem mem_dropWhile (p : Char → Bool) (l : List Char) (c : Char)
    (h : c ∈ l.dropWhile p) : c ∈ l := by
  obtain ⟨t, ht⟩ := exists_dropWhile_append p l
  rw [ht]
  exact List.mem_append.mpr (Or.inr h)

theorem exists_dropTrailing_append (l : List Char) :
    ∃ t, l = dropTrailingWs l ++ t := by
  obtain ⟨t, ht⟩ := exists_dropWhile_append isWsChar l.reverse
  refine ⟨t.reverse, ?_⟩
  show l = (l.reverse.dropWhile isWsChar).reverse ++ t.reverse
  rw [← List.reverse_append, ← ht, List.reverse_reverse]

theorem noWsRun_append_right (l₁ l₂ : List Char) (h : noWsRun (l₁ ++ l₂) = true) :
    noWsRun l₂ = true := by
  induction l₁ with
  | nil => exact h
  | cons a t ih =>
    rw [List.cons_append] at h
    exact ih (noWsRun_tail h)

theorem noWsRun_append_left (l₁ l₂ : List Char) (h : noWsRun (l₁ ++ l₂) = true) :
    noWsRun l₁ = true := by
  induction l₁ with
  | nil => rfl
  | cons a t ih =>
    cases t with
    | nil => rfl
    | cons b t' =>
      simp only [List.cons_append] at h
      simp only [noWsRun, Bool.and_eq_true] at h ⊢
      refine ⟨h.1, ?_⟩
      have h2 := h.2
      rw [← List.cons_append] at h2
      exact ih h2

theorem noWsRun_jsTrim (l : List Char) (h : noWsRun l = true) :
    noWsRun (jsTrim l) = true := by
  have h1 : noWsRun (l.dropWhile isWsChar) = true := by
    obtain ⟨t, ht⟩ := exists_dropWhile_append isWsChar l
    exact noWsRun_append_right t _ (ht ▸ h)
  obtain ⟨t, ht⟩ := exists_dropTrailing_append (l.dropWhile isWsChar)
  exact noWsRun_append_left _ t (ht ▸ h1)

theorem mem_jsTrim (l : List Char) (c : Char) (h : c ∈ jsTrim l) : c ∈ l := by
  obtain ⟨t, ht⟩ := exists_dropTrailing_append (l.dropWhile isWsChar)
  apply mem_dropWhile isWsChar l
  rw [ht]
  exact List.mem_append.mpr (Or.inl h)

theorem headNotWs_jsTrim (l : List Char) : headNotWs (jsTrim l) := by
  intro c hc
  obtain ⟨t, ht⟩ := exists_dropTrailing_append (l.dropWhile isWsChar)
  apply head_dropWhile_false isWsChar l
  cases hx : dropTrailingWs (l.dropWhile isWsChar) with
  | nil =>
    rw [show jsTrim l = dropTrailingWs (l.dropWhile isWsChar) from rfl, hx] at hc
    cases hc
  | cons d t' =>
    rw [show jsTrim l = dropTrailingWs (l.dropWhile isWsChar) from rfl, hx,
      List.head?_cons] at hc
    obtain rfl := Option.some.inj hc
    rw [ht, hx, List.cons_append, List.head?_cons]

theorem lastNotWs_jsTrim (l : List Char) : headNotWs (jsTrim l).reverse := by
  intro c hc
  have hrev : (jsTrim l).reverse =
      (l.dropWhile isWsChar).reverse.dropWhile isWsChar := by
    show (dropTrailingWs (l.dropWhile isWsChar)).reverse = _
    rw [dropTrailingWs, List.reverse_reverse]
  rw [hrev] at hc
  exact head_dropWhile_false isWsChar _ c hc

theorem dropWhile_eq_self_of_headNotWs (l : List Char) (h : headNotWs l) :
    l.dropWhile isWsChar = l := by
  cases l with
  | nil => rfl
  | cons c rest =>
    have hc := h c (by rw [List.head?_cons])
    rw [List.dropWhile_cons, if_neg (by rw [hc]; exact fun hh => Bool.noConfusion hh)]

theorem jsTrim_eq_self (l : List Char) (h1 : headNotWs l)
    (h2 : headNotWs l.reverse) : jsTrim l = l := by
  show dropTrailingWs (l.dropWhile isWsChar) = l
  rw [dropWhile_eq_self_of_headNotWs l h1]
  show (l.reverse.dropWhile isWsChar).reverse = l
  rw [dropWhile_eq_self_of_headNotWs l.reverse h2, List.reverse_reverse]

theorem kept_normList (s : List Char) : ∀ c ∈ normList s, keptChar c = true := by
  intro c hc
  have hc1 : c ∈ collapseWs ((ampToAnd (s.map toLowerJs)).filter keptChar) :=
    mem_jsTrim _ c hc
  rcases mem_collapseAux _ false c hc1 with hmem | rfl
  · exact List.of_mem_filter hmem
  · decide

theorem ws_normList (s : List Char) :
    ∀ c ∈ normList s, isWsChar c = true → c = ' ' := by
  intro c hc hw
  exact ws_mem_collapseAux _ false c (mem_jsTrim _ c hc) hw

theorem normList_fixed (l : List Char)
    (hkept : ∀ c ∈ l, keptChar c = true)
    (hnwr : noWsRun l = true)
    (hsp : ∀ c ∈ l, isWsChar c = true → c = ' ')
    (hh : headNotWs l) (hl : headNotWs l.reverse) : normList l = l := by
  unfold normList
  rw [map_toLowerJs_id l hkept, ampToAnd_id l hkept, filter_kept_id l hkept]
  show jsTrim (collapseWsAux false l) = l
  rw [collapseAux_eq_self l false hnwr hsp (fun h => absurd h (by decide))]
  exact jsTrim_eq_self l hh hl

/-- Claim C9: the header normalizer is idempotent, and it identifies
`"Work  Experience!"` with `"work experience"` (case and punctuation
insensitivity). -/
theorem c9_normalize_idempotent :
    (∀ s : List Char, normList (normList s) = normList s) ∧
      normList (s2l "Work  Experience!") = normList (s2l "work experience") := by
  constructor
  · intro s
    apply normList_fixed
    · exact kept_normList s
    · exact noWsRun_jsTrim _ (noWsRun_collapseAux _ false)
    · exact ws_normList s
    · exact headNotWs_jsTrim _
    · exact lastNotWs_jsTrim _
  · decide
